import Mathlib

/-!
Verification development for the `ban` repository.

The Go sources are embedded shallowly:

* `trie.go` (first variant, the one with nil/length guards): `node`,
  `trie`, `newTrie`, `trie.Add`, `trie.Has`, `bitAtIndex`.
* the IP/PrefixedIP unit: `IP`, `ipv4Prefix`, `ParseIP`, `PrefixedIP`,
  `NewPrefixedIP`, `ParsePrefixedIP`, `PrefixedIP.IP`,
  `PrefixedIP.PrefixLength`, `PrefixedIP.String`.

Go byte slices become `List Nat` (each entry a byte value), Go strings
become `List Char`, machine bytes become `Nat` with explicit bit
operations, and fallible functions return `Option`/`Except`.  Calls into
the Go standard library (`net.ParseIP`, `net.IP.String`) are not part of
the repository; they are passed in as explicit function parameters and
constrained by hypotheses that state their documented behaviour, while
`strings.Split` and `strconv.Atoi` and decimal formatting are modelled
directly.
-/

/-- Model of the constant `bitsPerByte` (8). -/
def bitsPerByte : Nat := 8

/-- Model of the constant `ipv4Length` (4). -/
def ipv4Length : Nat := 4

/-- Model of the constant `ipv6Length` (16). -/
def ipv6Length : Nat := 16

/-- Model of the constant `ipLength` (128, the number of bits in an IP). -/
def ipLength : Nat := ipv6Length * bitsPerByte

/-- Model of `bitAtIndex` from `trie.go`: the i-th bit of the address,
read most-significant-bit first.  Go indexes `ip[i/bitsPerByte]`; the
callers only use indices in range, and out-of-range reads default to 0
here. -/
def bitAtIndex (ip : List Nat) (i : Nat) : Nat :=
  (ip.getD (i / bitsPerByte) 0 >>> (bitsPerByte - 1 - i % bitsPerByte)) &&& 1

/-- Model of `node` from `trie.go`: a terminal flag `IsEnd` and two
optional children (`Children[0]`, `Children[1]`), a nil pointer becoming
`none`. -/
inductive Node : Type where
  | mk (isEnd : Bool) (child0 child1 : Option Node)

/-- The `IsEnd` field of a node. -/
def Node.isEnd : Node → Bool
  | .mk e _ _ => e

/-- The child selected by one address bit (`false` = bit 0, `true` = bit 1). -/
def Node.child : Node → Bool → Option Node
  | .mk _ c0 c1, b => if b then c1 else c0

/-- Setting `IsEnd = true` on a node (the final statement of `trie.Add`). -/
def Node.setEnd : Node → Node
  | .mk _ c0 c1 => .mk true c0 c1

/-- Replacing one child of a node (the assignment `current.Children[child] = ...`). -/
def Node.setChild : Node → Bool → Node → Node
  | .mk e c0 c1, b, v => if b then .mk e c0 (some v) else .mk e (some v) c1

/-- Go's zero-value node allocation: not terminal, no children. -/
def Node.empty : Node := .mk false none none

/-- Model of `trie` from `trie.go`: just a root node. -/
structure Trie : Type where
  root : Node

/-- Model of `newTrie`: an empty root. -/
def newTrie : Trie := ⟨Node.empty⟩

/-- The sequence of address bits a trie walk consumes: bits `0..k-1` of
the address, as Booleans.  `trie.Add` consumes `prefixLength` bits and
`trie.Has` consumes `ipLength` bits, each computed by `bitAtIndex`. -/
def pathBits (ip : List Nat) (k : Nat) : List Bool :=
  (List.range k).map fun i => bitAtIndex ip i == 1

/-- The loop of `trie.Add`, with the bits to consume precomputed: descend
one child per bit, allocating missing children (`&node{}` starts
non-terminal, so the walk continues through a fresh child), stop as soon
as the node stepped to is terminal, and mark the final node terminal when
all bits are consumed. -/
def addPath : Node → List Bool → Node
  | n, [] => n.setEnd
  | n, b :: bs =>
    match n.child b with
    | none => n.setChild b (addPath Node.empty bs)
    | some c => if c.isEnd then n else n.setChild b (addPath c bs)

/-- The loop of `trie.Has`, with the bits to consume precomputed: return
true as soon as the current node is terminal, false on a missing child,
and the final node's terminal flag when all bits are consumed. -/
def hasPath : Node → List Bool → Bool
  | n, [] => n.isEnd
  | n, b :: bs =>
    if n.isEnd then true
    else
      match n.child b with
      | none => false
      | some c => hasPath c bs

/-- Walking existing children along a bit path (no allocation); used to
speak about the node an insertion path would reach. -/
def followPath : Node → List Bool → Option Node
  | n, [] => some n
  | n, b :: bs =>
    match n.child b with
    | none => none
    | some c => followPath c bs

/-- Model of `trie.Add` from `trie.go`: a nil address (`none`), an address
whose length is not `ipv6Length`, or a prefix-length above `ipLength` is
ignored; otherwise the root is rewritten along the first `pl` bits of the
address. -/
def Trie.Add (t : Trie) (oip : Option (List Nat)) (pl : Nat) : Trie :=
  match oip with
  | none => t
  | some ip =>
    if ip.length ≠ ipv6Length then t
    else if ipLength < pl then t
    else ⟨addPath t.root (pathBits ip pl)⟩

/-- Model of `trie.Has` from `trie.go`: false for a nil or wrongly sized
address, otherwise a walk over all `ipLength` bits of the address. -/
def Trie.Has (t : Trie) (oip : Option (List Nat)) : Bool :=
  match oip with
  | none => false
  | some ip =>
    if ip.length ≠ ipv6Length then false
    else hasPath t.root (pathBits ip ipLength)

/-- The spec's notion of a range covering an address: the two agree on
the first `pl` bits. -/
def agreesOn (ip a : List Nat) (pl : Nat) : Bool :=
  (List.range pl).all fun i => bitAtIndex ip i == bitAtIndex a i

/-- Folding a list of `(address, prefixLength)` ranges into a trie with
`trie.Add`. -/
def insertAll (rs : List (List Nat × Nat)) (t : Trie) : Trie :=
  rs.foldl (fun t r => t.Add (some r.1) r.2) t

/-- Number of allocated nodes in a subtree (a measure of trie size). -/
def nodeCount : Node → Nat
  | .mk _ none none => 1
  | .mk _ (some a) none => 1 + nodeCount a
  | .mk _ none (some b) => 1 + nodeCount b
  | .mk _ (some a) (some b) => 1 + nodeCount a + nodeCount b

/-- Number of loop iterations the `trie.Add` walk performs on a bit path:
an iteration that steps to a terminal child still counts, and the walk
then stops. -/
def addPathSteps : Node → List Bool → Nat
  | _, [] => 0
  | n, b :: bs =>
    match n.child b with
    | none => 1 + addPathSteps Node.empty bs
    | some c => if c.isEnd then 1 else 1 + addPathSteps c bs

/-- Number of loop iterations the `trie.Has` walk performs on a bit path. -/
def hasPathSteps : Node → List Bool → Nat
  | _, [] => 0
  | n, b :: bs =>
    if n.isEnd then 0
    else
      match n.child b with
      | none => 1
      | some c => 1 + hasPathSteps c bs

/-- Loop iterations of `trie.Add` on the given input (0 when the guards
reject the input before the loop). -/
def Trie.AddSteps (t : Trie) (oip : Option (List Nat)) (pl : Nat) : Nat :=
  match oip with
  | none => 0
  | some ip =>
    if ip.length ≠ ipv6Length then 0
    else if ipLength < pl then 0
    else addPathSteps t.root (pathBits ip pl)

/-- Loop iterations of `trie.Has` on the given input. -/
def Trie.HasSteps (t : Trie) (oip : Option (List Nat)) : Nat :=
  match oip with
  | none => 0
  | some ip =>
    if ip.length ≠ ipv6Length then 0
    else hasPathSteps t.root (pathBits ip ipLength)

/-- Whether walking the existing children along a bit path reaches a
terminal node exactly at the end of the path. -/
def reachesEnd (n : Node) (p : List Bool) : Bool :=
  match followPath n p with
  | none => false
  | some m => m.isEnd

/-- Error values of the IP unit (`ErrBadIP`, `ErrBadPrefixedIP`,
`ErrBadPrefixLength`). -/
inductive BanErr : Type where
  | badIP
  | badPrefixedIP
  | badPrefixLength
deriving DecidableEq

/-- Model of the value `ipv4Prefix`: a 16-byte `IP` whose first 12 octets
are the fixed v4-embedding prefix and whose remaining octets are the
array's zero values. -/
def ipv4PrefixBytes : List Nat :=
  [0, 0, 0, 0, 0, 0, 0, 0, 0, 0, 255, 255, 0, 0, 0, 0]

/-- The overlay performed by `ParseIP`: Go copies the `len(nip)` parsed
bytes over the last `len(nip)` positions of a copy of `ipv4Prefix`; for
`len(nip) ≤ 16` that is a `take` of the prefix followed by the parsed
bytes (`net.ParseIP` only ever returns nil, 4 bytes or 16 bytes). -/
def overlayIPv4 (nip : List Nat) : List Nat :=
  ipv4PrefixBytes.take (16 - nip.length) ++ nip

/-- Model of `ParseIP`: the call into the standard library `net.ParseIP`
is passed in as `netParseIP` (`none` modelling a nil result); on success
the parsed bytes are overlaid on the v4-embedding prefix. -/
def ParseIP (netParseIP : List Char → Option (List Nat)) (sip : List Char) :
    Except BanErr (List Nat) :=
  match netParseIP sip with
  | none => .error .badIP
  | some nip => .ok (overlayIPv4 nip)

/-- Model of `PrefixedIP`: an IP (16 bytes) with a prefix-length. -/
structure PrefixedIP : Type where
  ip : List Nat
  prefixLength : Nat
deriving DecidableEq

/-- Model of `NewPrefixedIP`: fails if the prefix-length exceeds
`ipLength`, otherwise stores the fields unchanged. -/
def NewPrefixedIP (ip : List Nat) (pl : Nat) : Except BanErr PrefixedIP :=
  if ipLength < pl then .error .badPrefixLength
  else .ok ⟨ip, pl⟩

/-- One masking step of the method `PrefixedIP.IP`: clear bit `i`
(MSB-first), `ip[i/8] &= ^(1 << (7 - i%8))`, the byte complement `^x`
modelled as XOR with 255. -/
def maskBit (ip : List Nat) (i : Nat) : List Nat :=
  ip.set (i / bitsPerByte)
    ((ip.getD (i / bitsPerByte) 0) &&&
      (255 ^^^ (1 <<< (bitsPerByte - 1 - i % bitsPerByte))))

/-- The masking loop of the method `PrefixedIP.IP`, starting at bit `i`
with an explicit iteration count (the Go loop `for i := prefixLength;
i < ipLength; i++` runs `ipLength - prefixLength` times). -/
def maskFrom : Nat → List Nat → Nat → List Nat
  | 0, ip, _ => ip
  | fuel + 1, ip, i => maskFrom fuel (maskBit ip i) (i + 1)

/-- Model of the method `PrefixedIP.IP`: the stored address with every
bit at position ≥ prefixLength cleared. -/
def PrefixedIP.IP (p : PrefixedIP) : List Nat :=
  maskFrom (ipLength - p.prefixLength) p.ip p.prefixLength

/-- Model of the method `PrefixedIP.PrefixLength`. -/
def PrefixedIP.PrefixLength (p : PrefixedIP) : Nat :=
  p.prefixLength

/-- Digit character for a value 0–9 (`'0' + d`). -/
def digitChar (d : Nat) : Char := Char.ofNat (48 + d)

/-- Decimal digits of `n`, most significant first, with explicit fuel
(`n + 1` always suffices because `n / 10 < n`).  Models the `%d`
formatting used by the method `PrefixedIP.String`. -/
def decimalCharsAux : Nat → Nat → List Char
  | 0, _ => []
  | fuel + 1, n =>
    if n < 10 then [digitChar n]
    else decimalCharsAux fuel (n / 10) ++ [digitChar (n % 10)]

/-- Decimal representation of a natural number as characters. -/
def decimalChars (n : Nat) : List Char := decimalCharsAux (n + 1) n

/-- Model of `strings.Split` with the separator "/" used by
`ParsePrefixedIP` (splitting the empty string yields one empty part). -/
def splitSlash : List Char → List (List Char)
  | [] => [[]]
  | c :: cs =>
    if c = '/' then [] :: splitSlash cs
    else
      match splitSlash cs with
      | [] => [[c]]
      | h :: t => (c :: h) :: t

/-- Digit value of a character, if it is one of '0'..'9'. -/
def digitVal (c : Char) : Option Nat :=
  if 48 ≤ c.toNat ∧ c.toNat ≤ 57 then some (c.toNat - 48) else none

/-- Parse a run of decimal digits, most significant first, failing on any
non-digit. -/
def parseDigits : List Char → Nat → Option Nat
  | [], acc => some acc
  | c :: cs, acc =>
    match digitVal c with
    | none => none
    | some d => parseDigits cs (10 * acc + d)

/-- Model of `strconv.Atoi`: an optional sign followed by a nonempty
digit run.  Go additionally fails on 64-bit overflow; that case is left
unmodelled because every affected value exceeds 128 and leads
`ParsePrefixedIP` to the same `ErrBadPrefixLength` either way. -/
def atoi : List Char → Option Int
  | [] => none
  | c :: cs =>
    if c = '-' then
      if cs = [] then none
      else (parseDigits cs 0).map fun n => -(n : Int)
    else if c = '+' then
      if cs = [] then none
      else (parseDigits cs 0).map fun n => (n : Int)
    else (parseDigits (c :: cs) 0).map fun n => (n : Int)

/-- Model of `ParsePrefixedIP`: split on "/", require exactly two parts,
parse the address half and the integer half, and reject prefix lengths
outside 0..=128. -/
def ParsePrefixedIP (netParseIP : List Char → Option (List Nat)) (pip : List Char) :
    Except BanErr PrefixedIP :=
  let split := splitSlash pip
  if split.length ≠ 2 then .error .badPrefixedIP
  else
    match ParseIP netParseIP (split.getD 0 []) with
    | .error e => .error e
    | .ok ip =>
      match atoi (split.getD 1 []) with
      | none => .error .badPrefixLength
      | some pl =>
        if pl < 0 ∨ 128 < pl then .error .badPrefixLength
        else NewPrefixedIP ip pl.toNat

/-- Model of the method `PrefixedIP.String`: standard-library formatting
of the masked address (passed in as `netIPString`), a slash, then the
decimal prefix-length. -/
def PrefixedIP.String (netIPString : List Nat → List Char) (p : PrefixedIP) : List Char :=
  netIPString p.IP ++ ('/' :: decimalChars p.prefixLength)

theorem Node.isEnd_setChild (n : Node) (b : Bool) (v : Node) :
    (n.setChild b v).isEnd = n.isEnd := by
  cases n with
  | mk e c0 c1 => cases b <;> rfl

theorem Node.child_setChild_same (n : Node) (b : Bool) (v : Node) :
    (n.setChild b v).child b = some v := by
  cases n with
  | mk e c0 c1 => cases b <;> rfl

theorem Node.child_setChild_other (n : Node) (b c : Bool) (v : Node) (h : c ≠ b) :
    (n.setChild b v).child c = n.child c := by
  cases n with
  | mk e c0 c1 => cases b <;> cases c <;> simp_all [Node.setChild, Node.child]

theorem Node.setChild_eq_self (n : Node) (b : Bool) (c : Node) (h : n.child b = some c) :
    n.setChild b c = n := by
  cases n with
  | mk e c0 c1 => cases b <;> simp_all [Node.setChild, Node.child]

theorem Node.isEnd_setEnd (n : Node) : n.setEnd.isEnd = true := by
  cases n; rfl

theorem Node.setEnd_setEnd (n : Node) : n.setEnd.setEnd = n.setEnd := by
  cases n; rfl

theorem Node.setChild_setChild (n : Node) (b : Bool) (v w : Node) :
    (n.setChild b v).setChild b w = n.setChild b w := by
  cases n with
  | mk e c0 c1 => cases b <;> rfl

theorem hasPath_emptyNode (q : List Bool) : hasPath Node.empty q = false := by
  cases q with
  | nil => rfl
  | cons b bs => cases b <;> rfl

theorem hasPath_of_isEnd (n : Node) (q : List Bool) (h : n.isEnd = true) :
    hasPath n q = true := by
  cases q <;> simp [hasPath, h]

/-- Core interaction of the two trie walks: after inserting along path
`p`, a lookup along path `q` succeeds exactly when it succeeded before or
`p` is a prefix of `q`. -/
theorem hasPath_addPath (p : List Bool) : ∀ (n : Node) (q : List Bool),
    hasPath (addPath n p) q = (hasPath n q || p.isPrefixOf q) := by
  induction p with
  | nil =>
    intro n q
    cases q with
    | nil => simp [addPath, hasPath, Node.isEnd_setEnd, List.isPrefixOf]
    | cons c cs =>
      simp [addPath, hasPath, Node.isEnd_setEnd, List.isPrefixOf]
  | cons b bs IH =>
    intro n q
    cases hnb : n.child b with
    | none =>
      cases q with
      | nil =>
        simp [addPath, hnb, hasPath, Node.isEnd_setChild, List.isPrefixOf]
      | cons c cs =>
        by_cases he : n.isEnd = true
        · simp [addPath, hnb, hasPath, Node.isEnd_setChild, he]
        · have he' : n.isEnd = false := by simpa using he
          by_cases hbc : c = b
          · subst hbc
            simp only [addPath, hnb, hasPath, Node.isEnd_setChild, he',
              Node.child_setChild_same, Bool.false_eq_true, if_false]
            rw [IH]
            simp [hasPath_emptyNode, List.isPrefixOf]
          · simp only [addPath, hnb, hasPath, Node.isEnd_setChild, he',
              Node.child_setChild_other n b c _ hbc, Bool.false_eq_true, if_false]
            have : (b :: bs).isPrefixOf (c :: cs) = false := by
              simp [List.isPrefixOf]
              intro h
              exact absurd h.symm hbc
            rw [this, Bool.or_false]
    | some ch =>
      cases q with
      | nil =>
        by_cases hc : ch.isEnd = true
        · simp [addPath, hnb, hasPath, hc, List.isPrefixOf]
        · simp [addPath, hnb, hasPath, hc, Node.isEnd_setChild, List.isPrefixOf]
      | cons c cs =>
        by_cases he : n.isEnd = true
        · by_cases hc : ch.isEnd = true
          · simp [addPath, hnb, hasPath, hc, he]
          · simp [addPath, hnb, hasPath, hc, he, Node.isEnd_setChild]
        · have he' : n.isEnd = false := by simpa using he
          by_cases hc : ch.isEnd = true
          · -- absorption: the insertion returns the trie unchanged, and a
            -- query whose path extends the insertion path already hit the
            -- terminal child before the change.
            simp only [addPath, hnb, hc, if_true]
            cases hp : (b :: bs).isPrefixOf (c :: cs) with
            | false => rw [Bool.or_false]
            | true =>
              have hcb : b = c ∧ bs.isPrefixOf cs = true := by
                simpa [List.isPrefixOf, Bool.and_eq_true] using hp
              have : hasPath n (c :: cs) = true := by
                simp only [hasPath, he', Bool.false_eq_true, if_false]
                rw [← hcb.1, hnb]
                exact hasPath_of_isEnd ch cs hc
              rw [this, Bool.true_or]
          · by_cases hbc : c = b
            · subst hbc
              simp only [addPath, hnb, hc, Bool.false_eq_true, if_false, hasPath,
                Node.isEnd_setChild, he', Node.child_setChild_same]
              rw [IH]
              simp [List.isPrefixOf]
            · simp only [addPath, hnb, hc, Bool.false_eq_true, if_false, hasPath,
                Node.isEnd_setChild, he', Node.child_setChild_other n b c _ hbc]
              have : (b :: bs).isPrefixOf (c :: cs) = false := by
                simp [List.isPrefixOf]
                intro h
                exact absurd h.symm hbc
              rw [this, Bool.or_false]

theorem bitAtIndex_le_one (ip : List Nat) (i : Nat) : bitAtIndex ip i ≤ 1 :=
  Nat.and_le_right

theorem beq_one_eq_beq_one_iff (x y : Nat) (hx : x ≤ 1) (hy : y ≤ 1) :
    ((x == 1) = (y == 1)) ↔ x = y := by
  rcases Nat.le_one_iff_eq_zero_or_eq_one.mp hx with rfl | rfl <;>
    rcases Nat.le_one_iff_eq_zero_or_eq_one.mp hy with rfl | rfl <;> simp

theorem length_pathBits (ip : List Nat) (k : Nat) : (pathBits ip k).length = k := by
  simp [pathBits]

theorem take_pathBits (ip : List Nat) (k m : Nat) (h : k ≤ m) :
    (pathBits ip m).take k = pathBits ip k := by
  rw [pathBits, pathBits, ← List.map_take, List.take_range, min_eq_left h]

/-- A bit path is a prefix of a longer one exactly when the two addresses
agree on the shorter path's bits. -/
theorem pathBits_isPrefixOf_eq (ip a : List Nat) (k m : Nat) (h : k ≤ m) :
    (pathBits ip k).isPrefixOf (pathBits a m) = agreesOn ip a k := by
  have h1 : (pathBits ip k).isPrefixOf (pathBits a m) = true ↔
      ∀ i < k, bitAtIndex ip i = bitAtIndex a i := by
    rw [ List.isPrefixOf_iff_prefix, List.prefix_iff_eq_take, length_pathBits,
      take_pathBits a k m h]
    rw [pathBits, pathBits, List.map_inj_left]
    simp only [List.mem_range]
    exact forall₂_congr fun i hi =>
      beq_one_eq_beq_one_iff _ _ (bitAtIndex_le_one ip i) (bitAtIndex_le_one a i)
  have h2 : agreesOn ip a k = true ↔ ∀ i < k, bitAtIndex ip i = bitAtIndex a i := by
    simp [agreesOn, List.all_eq_true, List.mem_range]
  rw [Bool.eq_iff_iff]
  exact h1.trans h2.symm

/-- Inserting the same bit path twice changes nothing the second time. -/
theorem addPath_idem (p : List Bool) : ∀ n : Node,
    addPath (addPath n p) p = addPath n p := by
  induction p with
  | nil => intro n; simp [addPath, Node.setEnd_setEnd]
  | cons b bs IH =>
    intro n
    cases hnb : n.child b with
    | none =>
      by_cases hv : (addPath Node.empty bs).isEnd = true
      · simp [addPath, hnb, Node.child_setChild_same, hv]
      · simp [addPath, hnb, Node.child_setChild_same, hv, Node.setChild_setChild, IH]
    | some ch =>
      by_cases hc : ch.isEnd = true
      · simp [addPath, hnb, hc]
      · by_cases h2 : (addPath ch bs).isEnd = true
        · simp [addPath, hnb, hc, Node.child_setChild_same, h2]
        · simp [addPath, hnb, hc, Node.child_setChild_same, h2, Node.setChild_setChild, IH]

/-- Absorption along an existing walk: if following at least one bit of
the insertion path reaches an existing terminal node, the insertion
leaves the trie unchanged. -/
theorem addPath_absorbed (p₁ : List Bool) : ∀ (n m : Node) (p₂ : List Bool), p₁ ≠ [] →
    followPath n p₁ = some m → m.isEnd = true → addPath n (p₁ ++ p₂) = n := by
  induction p₁ with
  | nil => intro n m p₂ h; exact absurd rfl h
  | cons b bs IH =>
    intro n m p₂ _ hf he
    cases hnb : n.child b with
    | none => rw [followPath, hnb] at hf; exact absurd hf (by simp)
    | some c =>
      rw [followPath, hnb] at hf
      cases bs with
      | nil =>
        have hcm : c = m := by simpa [followPath] using hf
        subst hcm
        simp [addPath, hnb, he]
      | cons b2 bs2 =>
        by_cases hc : c.isEnd = true
        · simp [addPath, hnb, hc]
        · have hrec := IH c m p₂ (by simp) hf he
          simp only [List.cons_append, addPath, hnb, hc, Bool.false_eq_true, if_false]
          show n.setChild b (addPath c (b2 :: (bs2 ++ p₂))) = n
          rw [List.cons_append] at hrec
          rw [hrec]
          exact Node.setChild_eq_self n b c hnb


theorem Has_newTrie (a : List Nat) : newTrie.Has (some a) = false := by
  simp only [Trie.Has, newTrie]
  split
  · rfl
  · exact hasPath_emptyNode _

/-- One `trie.Add` of a well-formed range adds exactly the covered
addresses to the accepted set. -/
theorem Has_Add_union (t : Trie) (ip a : List Nat) (pl : Nat)
    (hip : ip.length = 16) (ha : a.length = 16) (hpl : pl ≤ 128) :
    (t.Add (some ip) pl).Has (some a) = (t.Has (some a) || agreesOn ip a pl) := by
  have hc1 : ¬ip.length ≠ ipv6Length := by simp [hip, ipv6Length]
  have hc2 : ¬a.length ≠ ipv6Length := by simp [ha, ipv6Length]
  have hc3 : ¬ipLength < pl := by simp [ipLength, ipv6Length, bitsPerByte]; omega
  simp only [Trie.Add, Trie.Has, hc1, hc2, hc3, if_false]
  rw [hasPath_addPath]
  rw [pathBits_isPrefixOf_eq ip a pl ipLength (by simp [ipLength, ipv6Length, bitsPerByte]; omega)]

/-- Folding a list of well-formed ranges into a trie unions their
coverage into the accepted set. -/
theorem Has_insertAll (rs : List (List Nat × Nat)) : ∀ (t : Trie) (a : List Nat),
    (∀ r ∈ rs, r.1.length = 16 ∧ r.2 ≤ 128) → a.length = 16 →
    (insertAll rs t).Has (some a) = (t.Has (some a) || rs.any fun r => agreesOn r.1 a r.2) := by
  induction rs with
  | nil => intro t a _ _; simp [insertAll]
  | cons r rs IH =>
    intro t a hv ha
    have hr := hv r (by simp)
    have hrs : ∀ x ∈ rs, x.1.length = 16 ∧ x.2 ≤ 128 :=
      fun x hx => hv x (List.mem_cons_of_mem _ hx)
    rw [show insertAll (r :: rs) t = insertAll rs (t.Add (some r.1) r.2) from rfl]
    rw [IH _ a hrs ha, Has_Add_union t r.1 a r.2 hr.1 ha hr.2]
    simp [Bool.or_assoc]

theorem any_of_perm {α : Type} (l1 l2 : List α) (h : l1.Perm l2) (f : α → Bool) :
    l1.any f = l2.any f := by
  rw [Bool.eq_iff_iff]
  simp only [List.any_eq_true]
  exact ⟨fun ⟨x, hx, hfx⟩ => ⟨x, h.mem_iff.mp hx, hfx⟩,
    fun ⟨x, hx, hfx⟩ => ⟨x, h.mem_iff.mpr hx, hfx⟩⟩

/-- C1: after any finite sequence of `Add` operations on a trie created
by `newTrie`, `Has a` is true for a 16-byte address exactly when some
inserted range agrees with `a` on its first `prefixLength` bits. -/
theorem membership_equals_union (rs : List (List Nat × Nat)) (a : List Nat)
    (hrs : ∀ r ∈ rs, r.1.length = 16 ∧ r.2 ≤ 128) (ha : a.length = 16) :
    (insertAll rs newTrie).Has (some a) = rs.any fun r => agreesOn r.1 a r.2 := by
  rw [Has_insertAll rs newTrie a hrs ha, Has_newTrie, Bool.false_or]

/-- Witness for C1 at a concrete input: one inserted /8 range and an
address sharing its first byte. -/
theorem membership_equals_union_wit :
    (∀ r ∈ [(List.replicate 16 (0 : Nat), 8)], r.1.length = 16 ∧ r.2 ≤ 128) ∧
    (List.replicate 16 (200 : Nat)).length = 16 ∧
    (insertAll [(List.replicate 16 (0 : Nat), 8)] newTrie).Has
        (some (List.replicate 16 (200 : Nat))) =
      [(List.replicate 16 (0 : Nat), 8)].any
        (fun r => agreesOn r.1 (List.replicate 16 (200 : Nat)) r.2) :=
  ⟨by decide, by decide, membership_equals_union _ _ (by decide) (by decide)⟩

/-- C4: performing `Add` twice with the same arguments yields exactly the
same trie as performing it once. -/
theorem add_idempotent (t : Trie) (oip : Option (List Nat)) (pl : Nat) :
    (t.Add oip pl).Add oip pl = t.Add oip pl := by
  match oip with
  | none => rfl
  | some ip =>
    by_cases h1 : ip.length ≠ ipv6Length
    · simp [Trie.Add, h1]
    · by_cases h2 : ipLength < pl
      · simp [Trie.Add, h1, h2]
      · simp [Trie.Add, h1, h2, addPath_idem]

/-- C5: tries built from permutations of the same ranges answer every
membership query identically. -/
theorem order_independent (rs1 rs2 : List (List Nat × Nat)) (a : List Nat)
    (hperm : rs1.Perm rs2) (hv : ∀ r ∈ rs1, r.1.length = 16 ∧ r.2 ≤ 128)
    (ha : a.length = 16) :
    (insertAll rs1 newTrie).Has (some a) = (insertAll rs2 newTrie).Has (some a) := by
  have hv2 : ∀ r ∈ rs2, r.1.length = 16 ∧ r.2 ≤ 128 :=
    fun r hr => hv r (hperm.mem_iff.mpr hr)
  rw [Has_insertAll rs1 newTrie a hv ha, Has_insertAll rs2 newTrie a hv2 ha,
    any_of_perm _ _ hperm]

/-- Witness for C5: swapping two concrete insertions. -/
theorem order_independent_wit :
    ([(List.replicate 16 (0 : Nat), 8), (List.replicate 16 (255 : Nat), 16)].Perm
      [(List.replicate 16 (255 : Nat), 16), (List.replicate 16 (0 : Nat), 8)]) ∧
    (insertAll [(List.replicate 16 (0 : Nat), 8), (List.replicate 16 (255 : Nat), 16)] newTrie).Has
        (some (List.replicate 16 (0 : Nat))) =
      (insertAll [(List.replicate 16 (255 : Nat), 16), (List.replicate 16 (0 : Nat), 8)] newTrie).Has
        (some (List.replicate 16 (0 : Nat))) :=
  ⟨List.Perm.swap _ _ _,
    order_independent _ _ _ (List.Perm.swap _ _ _) (by decide) (by decide)⟩

/-- Counterexample to C3: after inserting a prefix-length-0 range the
root is terminal, yet inserting a narrower range afterwards is not a
no-op — the walk only checks the terminal flag after stepping, so it
allocates a fresh child under the terminal root (node count grows from 1
to 2 and the trie changes). -/
theorem absorption_counterexample :
    (Trie.Add (Trie.Add newTrie (some (List.replicate 16 (0 : Nat))) 0)
        (some (List.replicate 16 (0 : Nat))) 1
      ≠ Trie.Add newTrie (some (List.replicate 16 (0 : Nat))) 0)
    ∧ nodeCount (Trie.Add newTrie (some (List.replicate 16 (0 : Nat))) 0).root = 1
    ∧ nodeCount (Trie.Add (Trie.Add newTrie (some (List.replicate 16 (0 : Nat))) 0)
        (some (List.replicate 16 (0 : Nat))) 1).root = 2 := by
  refine ⟨?_, by decide, by decide⟩
  intro h
  have h2 := congrArg (fun t => (t.root.child false).isSome) h
  revert h2
  decide

/-- C3 amended: absorption holds whenever the covering terminal node sits
at depth at least 1 — if following some nonempty prefix of the insertion
path through existing children reaches a terminal node, `Add` leaves the
trie unchanged.  (A terminal root, i.e. a prefix-length-0 entry, does not
absorb: the loop checks the terminal flag only after stepping to a
child.) -/
theorem absorption_amended (t : Trie) (ip : List Nat) (pl d : Nat)
    (hip : ip.length = 16) (hpl : pl ≤ 128) (hd1 : 1 ≤ d) (hd2 : d ≤ pl)
    (hterm : reachesEnd t.root (pathBits ip d) = true) :
    t.Add (some ip) pl = t := by
  obtain ⟨m, hm, hend⟩ : ∃ m, followPath t.root (pathBits ip d) = some m ∧ m.isEnd = true := by
    unfold reachesEnd at hterm
    cases hf : followPath t.root (pathBits ip d) with
    | none => rw [hf] at hterm; simp at hterm
    | some m => rw [hf] at hterm; exact ⟨m, rfl, hterm⟩
  have hc1 : ¬ip.length ≠ ipv6Length := by simp [hip, ipv6Length]
  have hc3 : ¬ipLength < pl := by simp [ipLength, ipv6Length, bitsPerByte]; omega
  simp only [Trie.Add, hc1, hc3, if_false]
  have hsplit : pathBits ip pl = pathBits ip d ++ (pathBits ip pl).drop d := by
    rw [← take_pathBits ip d pl hd2, List.take_append_drop]
  have hne : pathBits ip d ≠ [] := by
    intro hcontra
    have := congrArg List.length hcontra
    rw [length_pathBits] at this
    simp at this
    omega
  cases t with
  | mk root =>
    rw [hsplit]
    exact congrArg Trie.mk (addPath_absorbed _ root m _ hne hm hend)

/-- Witness for C3's amended theorem: a /1 range absorbs a later /5
insertion along the same path. -/
theorem absorption_amended_wit :
    ((List.replicate 16 (0 : Nat)).length = 16 ∧ (5 : Nat) ≤ 128 ∧ (1 : Nat) ≤ 1 ∧ (1 : Nat) ≤ 5 ∧
      reachesEnd (Trie.Add newTrie (some (List.replicate 16 (0 : Nat))) 1).root
        (pathBits (List.replicate 16 (0 : Nat)) 1) = true) ∧
    (Trie.Add newTrie (some (List.replicate 16 (0 : Nat))) 1).Add
        (some (List.replicate 16 (0 : Nat))) 5 =
      Trie.Add newTrie (some (List.replicate 16 (0 : Nat))) 1 :=
  ⟨⟨by decide, by decide, by decide, by decide, by decide⟩,
    absorption_amended (Trie.Add newTrie (some (List.replicate 16 (0 : Nat))) 1)
      (List.replicate 16 (0 : Nat)) 5 1
      (by decide) (by decide) (by decide) (by decide) (by decide)⟩

theorem addPathSteps_le (p : List Bool) : ∀ n : Node, addPathSteps n p ≤ p.length := by
  induction p with
  | nil => intro n; simp [addPathSteps]
  | cons b bs IH =>
    intro n
    cases hnb : n.child b with
    | none =>
      simp only [addPathSteps, hnb, List.length_cons]
      have := IH Node.empty
      omega
    | some c =>
      simp only [addPathSteps, hnb, List.length_cons]
      by_cases hc : c.isEnd = true
      · simp [hc]
      · have hc' : c.isEnd = false := by simpa using hc
        simp only [hc', Bool.false_eq_true, if_false]
        have := IH c
        omega

theorem hasPathSteps_le (p : List Bool) : ∀ n : Node, hasPathSteps n p ≤ p.length := by
  induction p with
  | nil => intro n; simp [hasPathSteps]
  | cons b bs IH =>
    intro n
    by_cases he : n.isEnd = true
    · simp [hasPathSteps, he]
    · have he' : n.isEnd = false := by simpa using he
      cases hnb : n.child b with
      | none => simp [hasPathSteps, he', hnb]
      | some c =>
        simp only [hasPathSteps, he', Bool.false_eq_true, if_false, hnb, List.length_cons]
        have := IH c
        omega

/-- C9: on every trie state, the `Add` walk performs at most
`min prefixLength 128` loop iterations and the `Has` walk at most 128,
independent of how many ranges were inserted; both operations are total
functions of their inputs. -/
theorem bounded_walks (t : Trie) (oip : Option (List Nat)) (pl : Nat) :
    t.AddSteps oip pl ≤ min pl 128 ∧ t.HasSteps oip ≤ 128 := by
  constructor
  · match oip with
    | none => simp [Trie.AddSteps]
    | some ip =>
      simp only [Trie.AddSteps]
      split
      · simp
      · split
        · simp
        · rename_i hpl
          have h1 := addPathSteps_le (pathBits ip pl) t.root
          rw [length_pathBits] at h1
          have h2 : pl ≤ 128 := by
            simp only [ipLength, ipv6Length, bitsPerByte] at hpl
            omega
          omega
  · match oip with
    | none => simp [Trie.HasSteps]
    | some ip =>
      simp only [Trie.HasSteps]
      split
      · simp
      · have h1 := hasPathSteps_le (pathBits ip ipLength) t.root
        rw [length_pathBits] at h1
        have h2 : ipLength = 128 := by decide
        omega

/-- C10: `Add` ignores a nil address, a wrongly sized address, or a
prefix length above 128 (returning the trie unchanged), and `Has` returns
false on a nil or wrongly sized address; neither inspects the trie in
those cases. -/
theorem malformed_inputs_ignored (t : Trie) (a : List Nat) (oip : Option (List Nat))
    (pl pl2 : Nat) (ha : a.length ≠ 16) (hpl : 128 < pl2) :
    t.Add none pl = t ∧ t.Add (some a) pl = t ∧ t.Add oip pl2 = t ∧
      t.Has none = false ∧ t.Has (some a) = false := by
  have ha' : a.length ≠ ipv6Length := by simpa [ipv6Length] using ha
  have hpl' : ipLength < pl2 := by simp [ipLength, ipv6Length, bitsPerByte]; omega
  refine ⟨rfl, by simp [Trie.Add, ha'], ?_, rfl, by simp [Trie.Has, ha']⟩
  match oip with
  | none => rfl
  | some ip =>
    by_cases h1 : ip.length ≠ ipv6Length
    · simp [Trie.Add, h1]
    · simp [Trie.Add, h1, hpl']

/-- Witness for C10 at concrete malformed inputs: the empty address and
prefix length 129. -/
theorem malformed_inputs_ignored_wit :
    (([] : List Nat).length ≠ 16 ∧ (128 : Nat) < 129) ∧
    (newTrie.Add none 0 = newTrie ∧ newTrie.Add (some []) 0 = newTrie ∧
      newTrie.Add (some (List.replicate 16 (0 : Nat))) 129 = newTrie ∧
      newTrie.Has none = false ∧ newTrie.Has (some []) = false) :=
  ⟨⟨by decide, by decide⟩,
    malformed_inputs_ignored newTrie [] (some (List.replicate 16 (0 : Nat))) 0 129
      (by decide) (by decide)⟩

theorem and_one_shift (x k : Nat) : (x >>> k) &&& 1 = if x.testBit k then 1 else 0 := by
  rw [Nat.and_one_is_mod, Nat.shiftRight_eq_div_pow, Nat.testBit_to_div_mod]
  rcases Nat.mod_two_eq_zero_or_one (x / 2 ^ k) with h | h <;> simp [h]

theorem bitAtIndex_eq_testBit (ip : List Nat) (i : Nat) :
    bitAtIndex ip i =
      if (ip.getD (i / bitsPerByte) 0).testBit (bitsPerByte - 1 - i % bitsPerByte) then 1
      else 0 := by
  rw [bitAtIndex, and_one_shift]

theorem length_maskBit (ip : List Nat) (i : Nat) : (maskBit ip i).length = ip.length := by
  simp [maskBit]

theorem testBit_maskValue (v k : Nat) (hk : k < 8) :
    (v &&& (255 ^^^ (1 <<< k))).testBit k = false := by
  rw [Nat.testBit_and, Nat.testBit_xor, Nat.shiftLeft_eq, one_mul]
  rw [show (255 : Nat) = 2 ^ 8 - 1 by norm_num]
  rw [Nat.testBit_two_pow_sub_one, Nat.testBit_two_pow_self]
  simp [hk]

theorem bitAtIndex_maskBit_self (ip : List Nat) (i : Nat)
    (hlen : i / bitsPerByte < ip.length) : bitAtIndex (maskBit ip i) i = 0 := by
  rw [bitAtIndex_eq_testBit]
  have hget : (maskBit ip i).getD (i / bitsPerByte) 0 =
      (ip.getD (i / bitsPerByte) 0) &&&
        (255 ^^^ (1 <<< (bitsPerByte - 1 - i % bitsPerByte))) := by
    rw [maskBit, List.getD_eq_getElem?_getD, List.getElem?_set_self hlen]
    rfl
  rw [hget, testBit_maskValue]
  · rfl
  · have : i % bitsPerByte < 8 := Nat.mod_lt _ (by decide)
    simp only [bitsPerByte] at this ⊢
    omega

theorem bitAtIndex_maskBit_zero (ip : List Nat) (i j : Nat)
    (h : bitAtIndex ip j = 0) : bitAtIndex (maskBit ip i) j = 0 := by
  by_cases hl : i / bitsPerByte < ip.length
  · by_cases hij : i / bitsPerByte = j / bitsPerByte
    · rw [bitAtIndex_eq_testBit] at h ⊢
      have hget : (maskBit ip i).getD (j / bitsPerByte) 0 =
          (ip.getD (j / bitsPerByte) 0) &&&
            (255 ^^^ (1 <<< (bitsPerByte - 1 - i % bitsPerByte))) := by
        rw [maskBit, ← hij, List.getD_eq_getElem?_getD, List.getElem?_set_self hl]
        rw [hij, List.getD_eq_getElem?_getD]
        rfl
      rw [hget, Nat.testBit_and]
      rcases ht : (ip.getD (j / bitsPerByte) 0).testBit (bitsPerByte - 1 - j % bitsPerByte) with h2 | h2
      · simp
      · rw [ht] at h
        simp at h
    · rw [bitAtIndex_eq_testBit] at h ⊢
      have hget : (maskBit ip i).getD (j / bitsPerByte) 0 = ip.getD (j / bitsPerByte) 0 := by
        rw [maskBit, List.getD_eq_getElem?_getD, List.getElem?_set_ne hij,
          ← List.getD_eq_getElem?_getD]
      rw [hget]
      exact h
  · have : maskBit ip i = ip := by
      rw [maskBit, List.set_eq_of_length_le (by omega)]
    rw [this]
    exact h

theorem bitAtIndex_maskFrom_zero (fuel : Nat) : ∀ (ip : List Nat) (s j : Nat),
    bitAtIndex ip j = 0 → bitAtIndex (maskFrom fuel ip s) j = 0 := by
  induction fuel with
  | zero => intro ip s j h; exact h
  | succ fuel IH =>
    intro ip s j h
    exact IH (maskBit ip s) (s + 1) j (bitAtIndex_maskBit_zero ip s j h)

theorem length_maskFrom (fuel : Nat) : ∀ (ip : List Nat) (s : Nat),
    (maskFrom fuel ip s).length = ip.length := by
  induction fuel with
  | zero => intro ip s; rfl
  | succ fuel IH => intro ip s; rw [maskFrom, IH, length_maskBit]

theorem bitAtIndex_maskFrom (fuel : Nat) : ∀ (s : Nat) (ip : List Nat) (i : Nat),
    ip.length = 16 → s + fuel ≤ 128 → s ≤ i → i < s + fuel →
    bitAtIndex (maskFrom fuel ip s) i = 0 := by
  induction fuel with
  | zero => intro s ip i _ _ _ h; omega
  | succ fuel IH =>
    intro s ip i hlen hb h1 h2
    rw [maskFrom]
    by_cases hi : i = s
    · subst hi
      apply bitAtIndex_maskFrom_zero
      apply bitAtIndex_maskBit_self
      rw [hlen]
      simp only [bitsPerByte]
      omega
    · exact IH (s + 1) (maskBit ip s) i (by rw [length_maskBit, hlen]) (by omega)
        (by omega) (by omega)

/-- C2: for every 16-byte address and every prefix length at most 128,
`NewPrefixedIP` succeeds, and the address observed through the method
`PrefixedIP.IP` has every bit at position ≥ prefixLength equal to 0. -/
theorem masking_invariant (ip : List Nat) (pl : Nat)
    (hlen : ip.length = 16) (hpl : pl ≤ 128) :
    NewPrefixedIP ip pl = .ok ⟨ip, pl⟩ ∧
    ∀ i, pl ≤ i → i < 128 → bitAtIndex (PrefixedIP.IP ⟨ip, pl⟩) i = 0 := by
  constructor
  · rw [NewPrefixedIP, if_neg]
    intro h
    rw [show ipLength = 128 from rfl] at h
    omega
  · intro i h1 h2
    show bitAtIndex (maskFrom (ipLength - pl) ip pl) i = 0
    rw [show ipLength = 128 from rfl]
    exact bitAtIndex_maskFrom (128 - pl) pl ip i hlen (by omega) h1 (by omega)

/-- Witness for C2 at a concrete input: the all-255 address with prefix
length 3. -/
theorem masking_invariant_wit :
    ((List.replicate 16 (255 : Nat)).length = 16 ∧ (3 : Nat) ≤ 128) ∧
    (NewPrefixedIP (List.replicate 16 (255 : Nat)) 3 = .ok ⟨List.replicate 16 (255 : Nat), 3⟩ ∧
      ∀ i, 3 ≤ i → i < 128 →
        bitAtIndex (PrefixedIP.IP ⟨List.replicate 16 (255 : Nat), 3⟩) i = 0) :=
  ⟨⟨by decide, by decide⟩,
    masking_invariant (List.replicate 16 (255 : Nat)) 3 (by decide) (by decide)⟩

theorem splitSlash_no_slash (B : List Char) (h : ∀ c ∈ B, c ≠ '/') :
    splitSlash B = [B] := by
  induction B with
  | nil => rfl
  | cons c cs IH =>
    have hc : c ≠ '/' := h c (by simp)
    have hcs := IH fun x hx => h x (by simp [hx])
    simp [splitSlash, hc, hcs]

theorem splitSlash_append (A B : List Char) (h : ∀ c ∈ A, c ≠ '/') :
    splitSlash (A ++ '/' :: B) = A :: splitSlash B := by
  induction A with
  | nil => simp [splitSlash]
  | cons c cs IH =>
    have hc : c ≠ '/' := h c (by simp)
    have hcs := IH fun x hx => h x (by simp [hx])
    simp [splitSlash, hc, hcs]

theorem digitChar_toNat (d : Nat) (h : d < 10) : (digitChar d).toNat = 48 + d := by
  interval_cases d <;> decide

theorem decimalCharsAux_digits (fuel : Nat) : ∀ n, n < fuel →
    ∀ c ∈ decimalCharsAux fuel n, 48 ≤ c.toNat ∧ c.toNat ≤ 57 := by
  induction fuel with
  | zero => intro n h; omega
  | succ fuel IH =>
    intro n hn c hc
    rw [decimalCharsAux] at hc
    by_cases h10 : n < 10
    · rw [if_pos h10] at hc
      simp at hc
      subst hc
      rw [digitChar_toNat n h10]
      omega
    · rw [if_neg h10] at hc
      rw [List.mem_append] at hc
      rcases hc with hc | hc
      · exact IH (n / 10) (by omega) c hc
      · simp at hc
        subst hc
        rw [digitChar_toNat _ (Nat.mod_lt _ (by norm_num))]
        have := Nat.mod_lt n (show 0 < 10 by norm_num)
        omega

theorem decimalCharsAux_ne_nil (fuel n : Nat) (h : n < fuel) :
    decimalCharsAux fuel n ≠ [] := by
  cases fuel with
  | zero => omega
  | succ fuel =>
    rw [decimalCharsAux]
    by_cases h10 : n < 10
    · simp [h10]
    · simp [h10]

theorem parseDigits_append (l1 l2 : List Char) : ∀ acc,
    parseDigits (l1 ++ l2) acc =
      match parseDigits l1 acc with
      | none => none
      | some v => parseDigits l2 v := by
  induction l1 with
  | nil => intro acc; rfl
  | cons c cs IH =>
    intro acc
    rw [List.cons_append, parseDigits]
    cases hd : digitVal c with
    | none => simp [parseDigits, hd]
    | some d => simp [parseDigits, hd, IH]

theorem digitVal_digitChar (d : Nat) (h : d < 10) : digitVal (digitChar d) = some d := by
  rw [digitVal, digitChar_toNat d h, if_pos (by omega)]
  congr 1
  omega

theorem parseDigits_decimalCharsAux (fuel : Nat) : ∀ n acc, n < fuel →
    parseDigits (decimalCharsAux fuel n) acc =
      some (acc * 10 ^ (decimalCharsAux fuel n).length + n) := by
  induction fuel with
  | zero => intro n acc h; omega
  | succ fuel IH =>
    intro n acc hn
    rw [decimalCharsAux]
    by_cases h10 : n < 10
    · rw [if_pos h10]
      simp only [parseDigits, digitVal_digitChar n h10]
      simp [pow_one, Nat.mul_comm]
    · rw [if_neg h10]
      rw [parseDigits_append, IH (n / 10) acc (by omega)]
      simp only [parseDigits, digitVal_digitChar _ (Nat.mod_lt n (show 0 < 10 by norm_num))]
      congr 1
      rw [List.length_append, List.length_cons, List.length_nil]
      calc 10 * (acc * 10 ^ (decimalCharsAux fuel (n / 10)).length + n / 10) + n % 10
          = acc * 10 ^ (decimalCharsAux fuel (n / 10)).length * 10 +
            (10 * (n / 10) + n % 10) := by ring
        _ = acc * 10 ^ (decimalCharsAux fuel (n / 10)).length * 10 + n := by
            rw [Nat.div_add_mod]
        _ = acc * 10 ^ ((decimalCharsAux fuel (n / 10)).length + 1) + n := by
            rw [pow_succ]; ring_nf

theorem decimalChars_digits (n : Nat) : ∀ c ∈ decimalChars n, 48 ≤ c.toNat ∧ c.toNat ≤ 57 :=
  decimalCharsAux_digits (n + 1) n (Nat.lt_succ_self n)

theorem decimalChars_no_slash (n : Nat) : ∀ c ∈ decimalChars n, c ≠ '/' := by
  intro c hc hcontra
  have := decimalChars_digits n c hc
  rw [hcontra] at this
  exact absurd this (by decide)

theorem atoi_decimalChars (n : Nat) : atoi (decimalChars n) = some (n : Int) := by
  have hfuel : n < n + 1 := Nat.lt_succ_self n
  obtain ⟨c, cs, hc⟩ : ∃ c cs, decimalCharsAux (n + 1) n = c :: cs := by
    cases h : decimalCharsAux (n + 1) n with
    | nil => exact absurd h (decimalCharsAux_ne_nil (n + 1) n hfuel)
    | cons c cs => exact ⟨c, cs, rfl⟩
  have hdig : 48 ≤ c.toNat ∧ c.toNat ≤ 57 :=
    decimalCharsAux_digits (n + 1) n hfuel c (by rw [hc]; simp)
  have hne1 : ¬c = '-' := by
    intro h
    rw [h] at hdig
    exact absurd hdig (by decide)
  have hne2 : ¬c = '+' := by
    intro h
    rw [h] at hdig
    exact absurd hdig (by decide)
  rw [decimalChars, hc, atoi, if_neg hne1, if_neg hne2, ← hc,
    parseDigits_decimalCharsAux (n + 1) n 0 hfuel]
  simp

/-- Evaluation of `ParsePrefixedIP` when the split has exactly two
parts. -/
theorem ParsePrefixedIP_eval (netParseIP : List Char → Option (List Nat))
    (s a b : List Char) (hs : splitSlash s = [a, b]) :
    ParsePrefixedIP netParseIP s =
      match netParseIP a with
      | none => .error .badIP
      | some nip =>
        match atoi b with
        | none => .error .badPrefixLength
        | some v =>
          if v < 0 ∨ 128 < v then .error .badPrefixLength
          else NewPrefixedIP (overlayIPv4 nip) v.toNat := by
  cases hn : netParseIP a with
  | none => simp [ParsePrefixedIP, hs, ParseIP, hn]
  | some nip =>
    cases hb : atoi b with
    | none => simp [ParsePrefixedIP, hs, ParseIP, hn, hb]
    | some v => simp [ParsePrefixedIP, hs, ParseIP, hn, hb]

/-- C7: `ParsePrefixedIP` returns the bad-ranged-address error exactly
when splitting on "/" does not give two parts; with exactly two parts, a
failing address half gives the bad-IP error, and a non-integer, negative
or above-128 prefix half gives the bad-prefix-length error (no partial
result is ever produced on failure, the return being an error value). -/
theorem parse_error_taxonomy (netParseIP : List Char → Option (List Nat)) (s : List Char) :
    (ParsePrefixedIP netParseIP s = .error .badPrefixedIP ↔ (splitSlash s).length ≠ 2) ∧
    (∀ a b, splitSlash s = [a, b] → netParseIP a = none →
      ParsePrefixedIP netParseIP s = .error .badIP) ∧
    (∀ a b, splitSlash s = [a, b] → netParseIP a ≠ none → atoi b = none →
      ParsePrefixedIP netParseIP s = .error .badPrefixLength) ∧
    (∀ a b v, splitSlash s = [a, b] → netParseIP a ≠ none → atoi b = some v →
      (v < 0 ∨ 128 < v) → ParsePrefixedIP netParseIP s = .error .badPrefixLength) := by
  by_cases h2 : (splitSlash s).length = 2
  · obtain ⟨a, b, hs⟩ := List.length_eq_two.mp h2
    have heval := ParsePrefixedIP_eval netParseIP s a b hs
    refine ⟨⟨?_, ?_⟩, ?_, ?_, ?_⟩
    · intro hres
      exfalso
      rw [heval] at hres
      cases hn : netParseIP a with
      | none => rw [hn] at hres; exact absurd hres (by simp)
      | some nip =>
        rw [hn] at hres
        cases hb : atoi b with
        | none => rw [hb] at hres; exact absurd hres (by simp)
        | some v =>
          rw [hb] at hres
          by_cases hv : v < 0 ∨ 128 < v
          · simp [hv] at hres
          · simp only [NewPrefixedIP] at hres
            simp [hv] at hres
            split at hres <;> simp_all
    · intro hlen
      exact absurd h2 hlen
    · intro a2 b2 hs2 hn
      rw [hs] at hs2
      simp only [List.cons.injEq, and_true] at hs2
      obtain ⟨ha2, hb2⟩ := hs2
      subst ha2; subst hb2
      rw [heval, hn]
    · intro a2 b2 hs2 hn hb
      rw [hs] at hs2
      simp only [List.cons.injEq, and_true] at hs2
      obtain ⟨ha2, hb2⟩ := hs2
      subst ha2; subst hb2
      cases hnn : netParseIP a with
      | none => exact absurd hnn hn
      | some nip => rw [heval, hnn, hb]
    · intro a2 b2 v hs2 hn hb hv
      rw [hs] at hs2
      simp only [List.cons.injEq, and_true] at hs2
      obtain ⟨ha2, hb2⟩ := hs2
      subst ha2; subst hb2
      cases hnn : netParseIP a with
      | none => exact absurd hnn hn
      | some nip =>
        rw [heval, hnn, hb]
        simp [hv]
  · have hres : ParsePrefixedIP netParseIP s = .error .badPrefixedIP := by
      simp only [ParsePrefixedIP]
      rw [if_pos h2]
    refine ⟨⟨fun _ => h2, fun _ => hres⟩, ?_, ?_, ?_⟩
    · intro a b hs _
      exfalso
      apply h2
      rw [hs]
      rfl
    · intro a b hs _ _
      exfalso
      apply h2
      rw [hs]
      rfl
    · intro a b v hs _ _ _
      exfalso
      apply h2
      rw [hs]
      rfl

/-- Witness for C7 at the spec's two concrete examples, with a concrete
address parser accepting only "1.2.3.4". -/
theorem parse_error_taxonomy_wit :
    splitSlash ("1.2.3.4/129".data) = ["1.2.3.4".data, "129".data] ∧
    atoi ("129".data) = some 129 ∧ ((129 : Int) < 0 ∨ 128 < (129 : Int)) ∧
    (splitSlash ("1.2.3.4".data)).length ≠ 2 ∧
    ParsePrefixedIP
        (fun t => if t = "1.2.3.4".data then some [0, 0, 0, 0, 0, 0, 0, 0, 0, 0, 255, 255, 1, 2, 3, 4] else none)
        ("1.2.3.4/129".data) = .error .badPrefixLength ∧
    ParsePrefixedIP
        (fun t => if t = "1.2.3.4".data then some [0, 0, 0, 0, 0, 0, 0, 0, 0, 0, 255, 255, 1, 2, 3, 4] else none)
        ("1.2.3.4".data) = .error .badPrefixedIP :=
  ⟨by decide, by decide, by decide, by decide,
    (parse_error_taxonomy
        (fun t => if t = "1.2.3.4".data then some [0, 0, 0, 0, 0, 0, 0, 0, 0, 0, 255, 255, 1, 2, 3, 4] else none)
        ("1.2.3.4/129".data)).2.2.2 ("1.2.3.4".data) ("129".data) 129
      (by decide) (by decide) (by decide) (by decide),
    ((parse_error_taxonomy
        (fun t => if t = "1.2.3.4".data then some [0, 0, 0, 0, 0, 0, 0, 0, 0, 0, 255, 255, 1, 2, 3, 4] else none)
        ("1.2.3.4".data)).1).mpr (by decide)⟩

theorem and_mask_eq_self (v k : Nat) (hv : v < 256) (hk : k < 8)
    (hbit : v.testBit k = false) : v &&& (255 ^^^ (1 <<< k)) = v := by
  apply Nat.eq_of_testBit_eq
  intro b
  rw [Nat.testBit_and, Nat.testBit_xor, Nat.shiftLeft_eq, one_mul,
    show (255 : Nat) = 2 ^ 8 - 1 by norm_num, Nat.testBit_two_pow_sub_one,
    Nat.testBit_two_pow]
  by_cases hb8 : b < 8
  · by_cases hbk : b = k
    · subst hbk
      simp [hbit]
    · simp [hb8, (Ne.symm hbk : k ≠ b)]
  · have hvb : v.testBit b = false := by
      apply Nat.testBit_lt_two_pow
      calc v < 256 := hv
        _ = 2 ^ 8 := by norm_num
        _ ≤ 2 ^ b := Nat.pow_le_pow_right (by norm_num) (by omega)
    simp [hvb, hb8]

theorem getD_lt_of_mem (l : List Nat) (j : Nat) (hj : j < l.length)
    (hb : ∀ b ∈ l, b < 256) : l.getD j 0 < 256 := by
  rw [List.getD_eq_getElem?_getD, List.getElem?_eq_getElem hj]
  exact hb _ (List.getElem_mem hj)

theorem set_getD_eq_self (l : List Nat) (j : Nat) (hj : j < l.length) :
    l.set j (l.getD j 0) = l := by
  have hget : l.getD j 0 = l.get ⟨j, hj⟩ := by
    rw [List.getD_eq_getElem?_getD, List.getElem?_eq_getElem hj]
    rfl
  rw [hget]
  apply List.ext_getElem (by simp)
  intro i h1 h2
  by_cases hi : i = j
  · subst hi
    simp
  · simp [List.getElem_set_ne (Ne.symm hi)]

theorem maskBit_eq_self (ip : List Nat) (i : Nat) (hlen : i / bitsPerByte < ip.length)
    (hbytes : ∀ b ∈ ip, b < 256) (hbit : bitAtIndex ip i = 0) : maskBit ip i = ip := by
  rw [maskBit]
  have hk : bitsPerByte - 1 - i % bitsPerByte < 8 := by
    simp only [bitsPerByte]
    omega
  have htb : (ip.getD (i / bitsPerByte) 0).testBit (bitsPerByte - 1 - i % bitsPerByte) = false := by
    rw [bitAtIndex_eq_testBit] at hbit
    cases h : (ip.getD (i / bitsPerByte) 0).testBit (bitsPerByte - 1 - i % bitsPerByte) with
    | false => rfl
    | true => rw [h] at hbit; simp at hbit
  rw [and_mask_eq_self _ _ (getD_lt_of_mem ip _ hlen hbytes) hk htb]
  exact set_getD_eq_self ip _ hlen

theorem maskFrom_eq_self (fuel : Nat) : ∀ (ip : List Nat) (s : Nat),
    ip.length = 16 → s + fuel ≤ 128 → (∀ b ∈ ip, b < 256) →
    (∀ i, s ≤ i → i < s + fuel → bitAtIndex ip i = 0) →
    maskFrom fuel ip s = ip := by
  induction fuel with
  | zero => intro ip s _ _ _ _; rfl
  | succ fuel IH =>
    intro ip s hlen hb hbytes hbits
    rw [maskFrom]
    have hself : maskBit ip s = ip := by
      apply maskBit_eq_self ip s _ hbytes (hbits s (le_refl s) (by omega))
      rw [hlen]
      simp only [bitsPerByte]
      omega
    rw [hself]
    exact IH ip (s + 1) hlen (by omega) hbytes fun i h1 h2 => hbits i (by omega) (by omega)

/-- A canonically masked `PrefixedIP` (all bits at positions ≥
prefixLength zero, bytes in range) is unchanged by the method
`PrefixedIP.IP`. -/
theorem PrefixedIP_IP_eq_self (r : PrefixedIP) (hlen : r.ip.length = 16)
    (hpl : r.prefixLength ≤ 128) (hbytes : ∀ b ∈ r.ip, b < 256)
    (hmask : ∀ i, r.prefixLength ≤ i → i < 128 → bitAtIndex r.ip i = 0) :
    r.IP = r.ip := by
  rw [PrefixedIP.IP, show ipLength = 128 from rfl]
  exact maskFrom_eq_self (128 - r.prefixLength) r.ip r.prefixLength hlen (by omega) hbytes
    fun i h1 h2 => hmask i h1 (by omega)

/-- C6: round-trip.  For a canonical `PrefixedIP` (16 bytes, each below
256, prefix length at most 128, all bits at positions ≥ prefixLength equal
to zero), and any standard-library address codec whose formatting of the
address contains no slash and is inverted by `ParseIP`, parsing the
rendered `address/prefixLength` form returns the same `PrefixedIP`. -/
theorem parse_string_roundtrip (netIPString : List Nat → List Char)
    (netParseIP : List Char → Option (List Nat)) (r : PrefixedIP)
    (hlen : r.ip.length = 16) (hpl : r.prefixLength ≤ 128)
    (hbytes : ∀ b ∈ r.ip, b < 256)
    (hmask : ∀ i, r.prefixLength ≤ i → i < 128 → bitAtIndex r.ip i = 0)
    (hnoslash : ∀ c ∈ netIPString r.ip, c ≠ '/')
    (hinv : ParseIP netParseIP (netIPString r.ip) = .ok r.ip) :
    ParsePrefixedIP netParseIP (PrefixedIP.String netIPString r) = .ok r := by
  have hcanon : r.IP = r.ip := PrefixedIP_IP_eq_self r hlen hpl hbytes hmask
  rw [PrefixedIP.String, hcanon]
  have hsplit : splitSlash (netIPString r.ip ++ '/' :: decimalChars r.prefixLength) =
      [netIPString r.ip, decimalChars r.prefixLength] := by
    rw [splitSlash_append _ _ hnoslash, splitSlash_no_slash _ (decimalChars_no_slash _)]
  obtain ⟨nip, hn, hov⟩ : ∃ nip, netParseIP (netIPString r.ip) = some nip ∧
      overlayIPv4 nip = r.ip := by
    cases hn : netParseIP (netIPString r.ip) with
    | none => rw [ParseIP, hn] at hinv; exact absurd hinv (by simp)
    | some nip =>
      rw [ParseIP, hn] at hinv
      simp at hinv
      exact ⟨nip, rfl, hinv⟩
  rw [ParsePrefixedIP_eval netParseIP _ _ _ hsplit, hn, atoi_decimalChars]
  have hcond : ¬((r.prefixLength : Int) < 0 ∨ 128 < (r.prefixLength : Int)) := by
    push_neg
    constructor
    · positivity
    · exact_mod_cast hpl
  show (if (r.prefixLength : Int) < 0 ∨ 128 < (r.prefixLength : Int) then
      Except.error BanErr.badPrefixLength
    else NewPrefixedIP (overlayIPv4 nip) ((r.prefixLength : Int)).toNat) = Except.ok r
  rw [if_neg hcond, Int.toNat_natCast, hov, NewPrefixedIP,
    if_neg (by rw [show ipLength = 128 from rfl]; omega)]

/-- Witness for C6: the all-zero address with prefix length 0 under a
concrete codec that renders it as "z" and parses "z" back. -/
theorem parse_string_roundtrip_wit :
    ((List.replicate 16 (0 : Nat)).length = 16 ∧
      (∀ b ∈ List.replicate 16 (0 : Nat), b < 256) ∧
      (∀ i, 0 ≤ i → i < 128 → bitAtIndex (List.replicate 16 (0 : Nat)) i = 0) ∧
      ParseIP (fun t => if t = ['z'] then some (List.replicate 16 (0 : Nat)) else none)
        ((fun _ => ['z']) (List.replicate 16 (0 : Nat))) =
          Except.ok (List.replicate 16 (0 : Nat))) ∧
    ParsePrefixedIP (fun t => if t = ['z'] then some (List.replicate 16 (0 : Nat)) else none)
        (PrefixedIP.String (fun _ => ['z']) ⟨List.replicate 16 (0 : Nat), 0⟩) =
      .ok ⟨List.replicate 16 (0 : Nat), 0⟩ :=
  ⟨⟨by decide, by decide, by decide, by rfl⟩,
    parse_string_roundtrip (fun _ => ['z'])
      (fun t => if t = ['z'] then some (List.replicate 16 (0 : Nat)) else none)
      ⟨List.replicate 16 (0 : Nat), 0⟩
      (by decide) (by decide) (by decide) (by decide) (by decide) (by rfl)⟩

theorem agreesOn_eq_false_of_ne (ip a : List Nat) (pl i : Nat) (hi : i < pl)
    (hne : bitAtIndex ip i ≠ bitAtIndex a i) : agreesOn ip a pl = false := by
  have h : ¬agreesOn ip a pl = true := by
    rw [agreesOn, List.all_eq_true]
    intro H
    exact hne (by simpa using H i (List.mem_range.mpr hi))
  simpa using h

theorem getD_of_take12 (y : List Nat) (j : Nat) (hj : j < 12)
    (h : y.take 12 = ipv4PrefixBytes.take 12) :
    y.getD j 0 = ipv4PrefixBytes.getD j 0 := by
  have h2 := congrArg (fun l => l[j]?) h
  simp only [List.getElem?_take, hj, if_true, if_pos] at h2
  rw [List.getD_eq_getElem?_getD, List.getD_eq_getElem?_getD, h2]

/-- Counterexample to C8: a range of prefix length 0 built from the
parsed IPv4 address 0.0.0.0 makes `Has` return true for the 16-byte
all-zero IPv6 address, even though the two parsed addresses differ. -/
theorem family_separation_counterexample :
    overlayIPv4 [0, 0, 0, 0] ≠ List.replicate 16 (0 : Nat) ∧
    (newTrie.Add (some (overlayIPv4 [0, 0, 0, 0])) 0).Has
      (some (List.replicate 16 (0 : Nat))) = true :=
  ⟨by decide, by decide⟩

/-- C8 amended: parsing an IPv4 result always yields the 16-octet form
carrying the fixed 00..00 FF FF prefix in octets 0–11 (`net.ParseIP`
returns either the 4 octets or the already-embedded 16-octet form); the
parsed address is never equal to an all-zero or all-255 16-byte IPv6
address; and for ranges whose prefix length covers the 12 family
octets (prefix length ≥ 96, in particular a full /128 ban), inserting a
range for one address never makes `Has` return true for the other. For
shorter prefixes a range can cover addresses of both families. -/
theorem family_separation_amended (netParseIP : List Char → Option (List Nat))
    (t : List Char) (nip a6 : List Nat) (pl : Nat)
    (hparse : netParseIP t = some nip)
    (hnip : nip.length = 4 ∨ (nip.length = 16 ∧ nip.take 12 = ipv4PrefixBytes.take 12))
    (ha6 : a6 = List.replicate 16 0 ∨ a6 = List.replicate 16 255)
    (hpl1 : 96 ≤ pl) (hpl2 : pl ≤ 128) :
    ParseIP netParseIP t = .ok (overlayIPv4 nip) ∧
    (overlayIPv4 nip).take 12 = ipv4PrefixBytes.take 12 ∧
    overlayIPv4 nip ≠ a6 ∧
    (∀ tr : Trie, tr.Has (some a6) = false →
      (tr.Add (some (overlayIPv4 nip)) pl).Has (some a6) = false) ∧
    (∀ tr : Trie, tr.Has (some (overlayIPv4 nip)) = false →
      (tr.Add (some a6) pl).Has (some (overlayIPv4 nip)) = false) := by
  have hlen : (overlayIPv4 nip).length = 16 := by
    rcases hnip with h4 | ⟨h16, _⟩
    · rw [overlayIPv4, h4, List.length_append, List.length_take, h4]
      decide
    · rw [overlayIPv4, h16, List.length_append, List.length_take, h16]
      decide
  have htake : (overlayIPv4 nip).take 12 = ipv4PrefixBytes.take 12 := by
    rcases hnip with h4 | ⟨h16, hpre⟩
    · rw [overlayIPv4, h4]
      exact List.take_left' (by decide)
    · rw [overlayIPv4, h16]
      simpa using hpre
  have hb10 : (overlayIPv4 nip).getD 10 0 = 255 :=
    (getD_of_take12 _ 10 (by omega) htake).trans (by decide)
  have hb0 : (overlayIPv4 nip).getD 0 0 = 0 :=
    (getD_of_take12 _ 0 (by omega) htake).trans (by decide)
  have hbit80 : bitAtIndex (overlayIPv4 nip) 80 = 1 := by
    rw [bitAtIndex, show (80 : Nat) / bitsPerByte = 10 from rfl, hb10]
    decide
  have hbit0 : bitAtIndex (overlayIPv4 nip) 0 = 0 := by
    rw [bitAtIndex, show (0 : Nat) / bitsPerByte = 0 from rfl, hb0]
    decide
  have ha6len : a6.length = 16 := by
    rcases ha6 with h | h <;> rw [h] <;> decide
  have hdisagree : ∃ i, i < 96 ∧ bitAtIndex (overlayIPv4 nip) i ≠ bitAtIndex a6 i := by
    rcases ha6 with h | h
    · refine ⟨80, by omega, ?_⟩
      rw [hbit80, h]
      decide
    · refine ⟨0, by omega, ?_⟩
      rw [hbit0, h]
      decide
  obtain ⟨i0, hi0, hne0⟩ := hdisagree
  refine ⟨by rw [ParseIP, hparse], htake, ?_, ?_, ?_⟩
  · intro hcontra
    exact hne0 (by rw [hcontra])
  · intro tr htr
    rw [Has_Add_union tr _ a6 pl hlen ha6len hpl2, htr,
      agreesOn_eq_false_of_ne _ _ pl i0 (by omega) hne0]
    rfl
  · intro tr htr
    rw [Has_Add_union tr a6 _ pl ha6len hlen hpl2, htr,
      agreesOn_eq_false_of_ne _ _ pl i0 (by omega) (Ne.symm hne0)]
    rfl

/-- Witness for C8's amended theorem: a concrete parser mapping "q" to
the 4 octets 7.7.7.7, the all-zero IPv6 address, and prefix length 96. -/
theorem family_separation_amended_wit :
    ((fun s => if s = ['q'] then some [7, 7, 7, 7] else none) ['q'] = some [7, 7, 7, 7] ∧
      (([7, 7, 7, 7] : List Nat).length = 4 ∨
        (([7, 7, 7, 7] : List Nat).length = 16 ∧
          ([7, 7, 7, 7] : List Nat).take 12 = ipv4PrefixBytes.take 12)) ∧
      (List.replicate 16 (0 : Nat) = List.replicate 16 0 ∨
        List.replicate 16 (0 : Nat) = List.replicate 16 255) ∧
      (96 : Nat) ≤ 96 ∧ (96 : Nat) ≤ 128) ∧
    (ParseIP (fun s => if s = ['q'] then some [7, 7, 7, 7] else none) ['q'] =
        .ok (overlayIPv4 [7, 7, 7, 7]) ∧
      (overlayIPv4 [7, 7, 7, 7]).take 12 = ipv4PrefixBytes.take 12 ∧
      overlayIPv4 [7, 7, 7, 7] ≠ List.replicate 16 (0 : Nat) ∧
      (∀ tr : Trie, tr.Has (some (List.replicate 16 (0 : Nat))) = false →
        (tr.Add (some (overlayIPv4 [7, 7, 7, 7])) 96).Has
          (some (List.replicate 16 (0 : Nat))) = false) ∧
      (∀ tr : Trie, tr.Has (some (overlayIPv4 [7, 7, 7, 7])) = false →
        (tr.Add (some (List.replicate 16 (0 : Nat))) 96).Has
          (some (overlayIPv4 [7, 7, 7, 7])) = false)) :=
  ⟨⟨by decide, by decide, by decide, by decide, by decide⟩,
    family_separation_amended (fun s => if s = ['q'] then some [7, 7, 7, 7] else none)
      (['q']) [7, 7, 7, 7] (List.replicate 16 (0 : Nat)) 96
      (by decide) (by decide) (by decide) (by decide) (by decide)⟩
